import Mathlib

/-!
Verification of the srcpack bundle assembler (`src/bundle.ts`) against its
natural-language specification.  The TypeScript source is shallowly embedded:
pure string manipulation becomes Lean functions on `String`/`List Char`,
filesystem access becomes explicit arguments (a list of files, or a lookup
function `String → Option String` whose `none` models a read error), and
the third-party collaborators (the `ignore` gitignore evaluator and the
`fast-glob`/`picomatch` glob matchers) are modelled from the specification
since their code is not part of this repository.
-/

namespace Srcpack

/-! ### Character and string helpers -/

/-- Whitespace characters removed by the JavaScript `String.prototype.trim`
(restricted to the ASCII range, which is all the spec exercises). -/
def isWsChar (c : Char) : Bool :=
  c == ' ' || c == '\t' || c == '\n' || c == '\r' || c == '\x0b' || c == '\x0c'

/-- Models the JavaScript `s.trim()`: drop whitespace from both ends. -/
def jsTrim (s : String) : String :=
  ⟨((s.data.dropWhile isWsChar).reverse.dropWhile isWsChar).reverse⟩

/-- `s` contains no newline character. -/
def noNl (s : String) : Prop := '\n' ∉ s.data

instance (s : String) : Decidable (noNl s) := by unfold noNl; infer_instance

/-- Split a character list at every occurrence of `sep` (the separator is
consumed; `n + 1` chunks for `n` separators, as `String.split` does). -/
def splitChar (sep : Char) : List Char → List (List Char)
  | [] => [[]]
  | c :: rest =>
    if c = sep then [] :: splitChar sep rest
    else
      match splitChar sep rest with
      | [] => [[c]]
      | l :: ls => (c :: l) :: ls

/-- The lines of a string: split on the newline character.  This is the
"splitting the content on newline characters" of the specification. -/
def splitLines (s : String) : List String :=
  (splitChar '\n' s.data).map fun l => ⟨l⟩

/-- Split a path-like string on `/` (used for glob segment matching). -/
def splitSlash (s : String) : List String :=
  (splitChar '/' s.data).map fun l => ⟨l⟩

/-- Models `array.join("\n")` from the source. -/
def joinNl : List String → String
  | [] => ""
  | [s] => s
  | s :: rest => s ++ "\n" ++ joinNl rest

/-- Does the string end with a newline (`content.endsWith("\n")`)? -/
def endsWithNl (s : String) : Bool :=
  s.data.getLast? == some '\n'

/-- Models `(content.match(/\n/g) || []).length`: the number of newline
characters in the string. -/
def matchNlCount (s : String) : Nat :=
  (s.data.filter fun c => c == '\n').length

/-- `countLines` from `src/bundle.ts`:
0 for the empty string; otherwise the number of `\n` occurrences, plus one
unless the content already ends with `\n`. -/
def countLines (s : String) : Nat :=
  if s = "" then 0
  else if endsWithNl s then matchNlCount s else matchNlCount s + 1

/-- Models `content.endsWith("\n") ? content.slice(0, -1) : content`:
strip a single trailing newline. -/
def stripTrailingNl (s : String) : String :=
  if endsWithNl s then ⟨s.data.dropLast⟩ else s

/-- Models `s.padEnd(n)`: pad with spaces on the right up to length `n`. -/
def padEnd (s : String) (n : Nat) : String :=
  s ++ ⟨List.replicate (n - s.length) ' '⟩

/-! ### Data model (`FileEntry`, `BundleResult`, `BundleOptions`) -/

/-- One bundled file entry of the index (`FileEntry` in `src/bundle.ts`).
`startLine`/`endLine` are 1-indexed inclusive line numbers in the rendered
bundle. -/
structure FileEntry where
  path : String
  lines : Nat
  startLine : Nat
  endLine : Nat
  deriving Repr, DecidableEq

/-- `BundleResult` from `src/bundle.ts`. -/
structure BundleResult where
  content : String
  index : List FileEntry
  deriving Repr, DecidableEq

/-- `BundleOptions` from `src/bundle.ts` (defaults as in the source). -/
structure BundleOptions where
  includeIndex : Bool := true
  prompt : Option String := none
  deriving Repr, DecidableEq

/-- Models `options.prompt?.trim() || undefined`: trim, and treat an empty
or whitespace-only prompt as no prompt. -/
def normalizePrompt : Option String → Option String
  | none => none
  | some s => let t := jsTrim s; if t = "" then none else some t

/-- `formatSeparator` from `src/bundle.ts`. -/
def formatSeparator (index : Nat) (filePath : String) : String :=
  "#==> [" ++ toString index ++ "] " ++ filePath ++ " <=="

/-- One line of the index block (the loop body of `formatIndex`);
`i` is the 0-based position of the entry. -/
def indexEntryLine (i : Nat) (e : FileEntry) : String :=
  "# " ++ padEnd ("[" ++ toString (i + 1) ++ "]") 5 ++ " " ++ e.path ++
    "  L" ++ toString e.startLine ++ "-L" ++ toString e.endLine ++
    " (" ++ toString e.lines ++ " " ++ (if e.lines = 1 then "line" else "lines") ++ ")"

/-- The index entry lines, numbering from position `i`. -/
def indexEntryLines : Nat → List FileEntry → List String
  | _, [] => []
  | i, e :: rest => indexEntryLine i e :: indexEntryLines (i + 1) rest

/-- `formatIndex` from `src/bundle.ts`. -/
def formatIndex (index : List FileEntry) : String :=
  match index with
  | [] => "# Index\n# (empty)"
  | _ =>
    let count := index.length
    joinNl (("# Index (" ++ toString count ++ " file" ++
      (if count = 1 then "" else "s") ++ ")") :: indexEntryLines 0 index)

/-! ### The bundle renderer (`createBundle`) -/

/-- The index-building loop of `createBundle`, before any header shift:
walks the (path, content) pairs with the running `currentLine` cursor
(`cur`); the separator occupies line `cur`, content starts at `cur + 1`
and spans `max 0 (lines - 1)` further lines (natural subtraction below is
exactly `Math.max(0, lines - 1)`). -/
def buildEntries : List (String × String) → Nat → List FileEntry
  | [], _ => []
  | (path, content) :: rest, cur =>
    let lines := countLines content
    let startLine := cur + 1
    let e : FileEntry :=
      { path := path, lines := lines, startLine := startLine,
        endLine := startLine + (lines - 1) }
    e :: buildEntries rest (e.endLine + 1)

/-- The `contentParts` accumulation of `createBundle`: for the file at
1-based position `i`, push its separator line and its content with a single
trailing newline stripped. -/
def buildParts : List (String × String) → Nat → List String
  | [], _ => []
  | (path, content) :: rest, i =>
    formatSeparator i path :: stripTrailingNl content :: buildParts rest (i + 1)

/-- Shift the line numbers of an entry (the `entry.startLine += headerLines`
mutation of the source). -/
def shiftEntry (n : Nat) (e : FileEntry) : FileEntry :=
  { e with startLine := e.startLine + n, endLine := e.endLine + n }

/-- `createBundle` from `src/bundle.ts`, over pre-read file contents: the
caller supplies the `(path, content)` pairs the source obtains from its
`readFile` calls (the fallible read is `createBundleRead` below). -/
def createBundle (files : List (String × String)) (options : BundleOptions) : BundleResult :=
  let includeIndex := options.includeIndex
  let prompt := normalizePrompt options.prompt
  let index0 := buildEntries files 1
  let contentParts := buildParts files 1
  let promptLines : Nat := match prompt with
    | none => 0
    | some p => countLines p + 3
  if includeIndex then
    let headerLines := index0.length + 2 + promptLines
    let index := index0.map (shiftEntry headerLines)
    let indexBlock := formatIndex index
    let bundleContent :=
      if index.isEmpty then indexBlock
      else indexBlock ++ "\n\n" ++ joinNl contentParts
    let content := match prompt with
      | none => bundleContent
      | some p => p ++ "\n\n---\n\n" ++ bundleContent
    { content := content, index := index }
  else
    let bundleContent := joinNl contentParts
    let content := match prompt with
      | none => bundleContent
      | some p => p ++ "\n\n---\n\n" ++ bundleContent
    let index := if promptLines > 0 then index0.map (shiftEntry promptLines) else index0
    { content := content, index := index }

/-- Sequentially read every file, aborting on the first failure: models the
`await readFile` loop of `createBundle`, where `none` is a filesystem
error. -/
def readAll (readF : String → Option String) : List String → Option (List String)
  | [] => some []
  | f :: rest =>
    match readF f with
    | none => none
    | some c =>
      match readAll readF rest with
      | none => none
      | some cs => some (c :: cs)

/-- `createBundle` including its filesystem reads: `readF` is the
(error-prone) text read, applied to each path in order; any failure
propagates and no result is produced. -/
def createBundleRead (readF : String → Option String) (files : List String)
    (options : BundleOptions) : Option BundleResult :=
  match readAll readF files with
  | none => none
  | some contents => some (createBundle (files.zip contents) options)

/-! ### Glob matching (spec model of `picomatch` / `fast-glob` patterns) -/

/-- Modelled from the spec: glob matching of one path segment, with `*`
(any run of characters) and `?` (any single character); other characters
match literally.  This is the segment-level behavior of the `picomatch`
matcher the source delegates to. -/
def segMatch : List Char → List Char → Bool
  | [], s => s.isEmpty
  | p :: ps, s =>
    if p = '*' then s.tails.any fun suf => segMatch ps suf
    else
      match s with
      | [] => false
      | c :: cs => (p == '?' || p == c) && segMatch ps cs

/-- Modelled from the spec: glob matching over `/`-separated segments.
A `**` segment matches any number of segments — zero or more in the middle
of a pattern, one or more when `**` is the final segment (so `a/**` matches
`a/b` but not `a` itself, as `picomatch`/`micromatch` do by default). -/
def globSegs : List String → List String → Bool
  | [], cs => cs.isEmpty
  | p :: ps, cs =>
    if p = "**" then
      if ps.isEmpty then !cs.isEmpty
      else cs.tails.any fun suf => globSegs ps suf
    else
      match cs with
      | [] => false
      | c :: cs2 => segMatch p.data c.data && globSegs ps cs2

/-- Modelled from the spec: whole-path glob match (`picomatch(pattern)`
applied to a relative path). -/
def globMatch (pat path : String) : Bool :=
  globSegs (splitSlash pat) (splitSlash path)

/-! ### Binary detection (`isBinary`) -/

/-- How many bytes the binary check reads (`BINARY_CHECK_SIZE`). -/
def BINARY_CHECK_SIZE : Nat := 8192

/-- `isBinary` from `src/bundle.ts`, over the file bytes: an empty file is
never binary; otherwise the first `min size 8192` bytes are scanned for a
null byte. -/
def isBinary (bytes : List Nat) : Bool :=
  if bytes.length = 0 then false
  else (bytes.take (min bytes.length BINARY_CHECK_SIZE)).contains 0

/-! ### Gitignore model -/

/-- First character test (`s.startsWith(c)` for a one-character prefix). -/
def startsWithChar (s : String) (c : Char) : Bool :=
  s.data.head? == some c

/-- Last character test (`s.endsWith(c)` for a one-character suffix). -/
def endsWithChar (s : String) (c : Char) : Bool :=
  s.data.getLast? == some c

/-- `s.slice(1)`: drop the first character. -/
def strDropFirst (s : String) : String := ⟨s.data.drop 1⟩

/-- `s.slice(0, -1)`: drop the last character. -/
def strDropLast (s : String) : String := ⟨s.data.dropLast⟩

/-- Models the `/^[\w.-]+$/` test of `gitignoreToGlobPatterns`: every
character is an ASCII word character, a dot or a hyphen (and the name is
non-empty, which the source checks separately). -/
def isSimpleNameChar (c : Char) : Bool :=
  c.isAlphanum || c == '_' || c == '.' || c == '-'

/-- `gitignoreToGlobPatterns` from `src/bundle.ts`: if any trimmed line
starts with `!`, no prune patterns at all; otherwise each line that is a
plain directory name (no comment marker, no `/ * ? [ \\`, name matching
`[\w.-]+` after an optional trailing slash) becomes the prune glob
`**/<name>/**`. -/
def gitignoreToGlobPatterns (lines : List String) : List String :=
  let hasNeg := lines.any fun line => startsWithChar (jsTrim line) '!'
  if hasNeg then []
  else
    lines.filterMap fun line =>
      let trimmed := jsTrim line
      if trimmed = "" || startsWithChar trimmed '#' then none
      else if startsWithChar trimmed '/' || trimmed.data.contains '*' ||
          trimmed.data.contains '?' || trimmed.data.contains '[' ||
          trimmed.data.contains '/' || trimmed.data.contains '\\' then none
      else
        let name := if endsWithChar trimmed '/' then strDropLast trimmed else trimmed
        if name ≠ "" && name.data.all isSimpleNameChar then
          some ("**/" ++ name ++ "/**")
        else none

/-- One parsed ignore rule.  Modelled from the spec: the `ignore` package
collaborator honors negation (`!` prefix), directory-only rules (trailing
`/`), and anchoring (a `/` at the start or middle of the pattern). -/
structure IgnoreRule where
  negated : Bool
  dirOnly : Bool
  anchored : Bool
  segs : List String
  deriving Repr, DecidableEq

/-- Modelled from the spec: parse one line of the ignore-rules file.
Blank lines and `#` comments yield no rule; `!` marks negation (so `!#f`
negates the pattern `#f`); a trailing `/` marks a directory-only rule; a
remaining `/` anywhere anchors the pattern to the root. -/
def parseIgnoreLine (line : String) : Option IgnoreRule :=
  let t := jsTrim line
  if t = "" then none
  else if startsWithChar t '#' then none
  else
    let negated := startsWithChar t '!'
    let t1 := if negated then strDropFirst t else t
    let dirOnly := endsWithChar t1 '/'
    let t2 := if dirOnly then strDropLast t1 else t1
    let anchored := t2.data.contains '/'
    let t3 := if startsWithChar t2 '/' then strDropFirst t2 else t2
    if t3 = "" then none
    else some { negated := negated, dirOnly := dirOnly, anchored := anchored,
                segs := splitSlash t3 }

/-- Modelled from the spec: does a rule match a file or directory given by
its path components?  An anchored rule matches from the root with glob
segments; an unanchored rule (a single segment, having no `/`) matches the
entity basename at any depth. -/
def ruleMatchesEntity (r : IgnoreRule) (comps : List String) : Bool :=
  if r.anchored then globSegs r.segs comps
  else
    match r.segs, comps.getLast? with
    | [s], some base => segMatch s.data base.data
    | [_], none => false
    | _, _ => globSegs r.segs comps

/-- The strict ancestor directories of a path: every proper non-empty
prefix of its component list. -/
def ancestorDirs : List String → List (List String)
  | [] => []
  | [_] => []
  | c :: rest => [c] :: (ancestorDirs rest).map (c :: ·)

/-- Modelled from the spec: a rule ignores a file if it matches the file
itself (directory-only rules cannot), or matches any ancestor directory
(everything under an ignored directory is ignored). -/
def ruleIgnoresPath (r : IgnoreRule) (comps : List String) : Bool :=
  (!r.dirOnly && ruleMatchesEntity r comps) ||
    (ancestorDirs comps).any (ruleMatchesEntity r)

/-- Modelled from the spec: the ignore-rule evaluator collaborator
(`ignore().add(content).ignores(path)`).  The rules are applied in file
order and later rules override earlier ones (negation re-includes). -/
def ignores (glines : List String) (path : String) : Bool :=
  let comps := splitSlash path
  (glines.filterMap parseIgnoreLine).foldl
    (fun acc r => if ruleIgnoresPath r comps then !r.negated else acc) false

/-! ### Pattern resolution (`resolvePatterns`) -/

/-- A file of the modelled working directory: its relative path and raw
bytes (binary detection inspects the bytes). -/
structure FSFile where
  path : String
  bytes : List Nat
  deriving Repr, DecidableEq

/-- The bytes of the file at `path` (`readFile`/`open` by path; `[]` when
absent, though the resolver only looks up paths it got from the glob). -/
def fileBytes (fs : List FSFile) (path : String) : List Nat :=
  match fs.find? fun f => f.path == path with
  | none => []
  | some f => f.bytes

/-- The three pattern classes of `normalizePatterns`.  The `include` field
is named `incl` (and `exclude` is `excl`) because `include` is a Lean
keyword. -/
structure PatternSet where
  incl : List String
  excl : List String
  force : List String
  deriving Repr, DecidableEq

/-- `BundleConfigInput`: a single pattern string, an array of patterns, or
a structured object carrying the patterns plus `index`/`prompt` options
(its `include` field is already in list form; the source wraps a lone
string into a one-element array). -/
inductive BundleConfigInput where
  | str (pattern : String)
  | arr (patterns : List String)
  | obj (patterns : List String) (index : Option Bool) (prompt : Option String)
  deriving Repr, DecidableEq

/-- The classification loop of `normalizePatterns`: `!pattern` to exclude,
`+pattern` to force, anything else to include, preserving order. -/
def classifyPatterns : List String → PatternSet
  | [] => ⟨[], [], []⟩
  | p :: rest =>
    let r := classifyPatterns rest
    if startsWithChar p '!' then { r with excl := strDropFirst p :: r.excl }
    else if startsWithChar p '+' then { r with force := strDropFirst p :: r.force }
    else { r with incl := p :: r.incl }

/-- `normalizePatterns` from `src/bundle.ts`. -/
def normalizePatterns (config : BundleConfigInput) : PatternSet :=
  let patterns := match config with
    | .str p => [p]
    | .arr ps => ps
    | .obj ps _ _ => ps
  classifyPatterns patterns

/-- `isExcluded` from `src/bundle.ts`: does the path match any exclusion
matcher (`picomatch` modelled by `globMatch`)? -/
def isExcluded (filePath : String) (matchers : List String) : Bool :=
  matchers.any fun p => globMatch p filePath

/-- Modelled from the spec: the `fast-glob` collaborator.  Returns the
paths of the files matching any of `patterns`, except those matching one of
the `ignorePats` glob patterns (passing prune patterns as `ignore` skips
ignored directories during traversal; its observable effect is exactly
that matches under them are dropped). -/
def globExpand (patterns ignorePats : List String) (fs : List FSFile) : List String :=
  (fs.filter fun f =>
      (patterns.any fun p => globMatch p f.path) &&
      !(ignorePats.any fun ip => globMatch ip f.path)).map (·.path)

/-- `Set.add`: append the path unless already present. -/
def addUnique (acc : List String) (x : String) : List String :=
  if x ∈ acc then acc else acc ++ [x]

/-- The include-branch survivors of `resolvePatterns`: glob matches (with
the prune patterns) that are not excluded, not gitignored, and not
binary. -/
def includeSurvivors (ps : PatternSet) (globPatterns : List String)
    (glines : List String) (fs : List FSFile) : List String :=
  if ps.incl.isEmpty then []
  else
    (globExpand ps.incl globPatterns fs).filter fun m =>
      !isExcluded m ps.excl && !ignores glines m && !isBinary (fileBytes fs m)

/-- The force-branch survivors of `resolvePatterns`: glob matches (no
prune patterns) that are not excluded and not binary — the gitignore test
is bypassed. -/
def forceSurvivors (ps : PatternSet) (fs : List FSFile) : List String :=
  if ps.force.isEmpty then []
  else
    (globExpand ps.force [] fs).filter fun m =>
      !isExcluded m ps.excl && !isBinary (fileBytes fs m)

/-- Lexicographic comparison of character lists by code point: the
comparator of the JavaScript default `Array.prototype.sort()` on the
resolver output. -/
def charListLe : List Char → List Char → Bool
  | [], _ => true
  | _ :: _, [] => false
  | a :: as, b :: bs =>
    if a.toNat < b.toNat then true
    else if b.toNat < a.toNat then false
    else charListLe as bs

/-- `a ≤ b` for the result sort (`[...files].sort()`). -/
def strLe (a b : String) : Bool := charListLe a.data b.data

instance : DecidableRel (fun a b : String => strLe a b = true) :=
  fun a b => inferInstanceAs (Decidable (strLe a b = true))

/-- `resolvePatterns` from `src/bundle.ts` (the optimized version): the
prune patterns derived from the ignore file are passed to the include glob;
survivors of both branches are collected into a set in order and the result
is sorted.  The working directory is `fs`, the `.gitignore` content is
given by its lines `glines`. -/
def resolvePatterns (config : BundleConfigInput) (glines : List String)
    (fs : List FSFile) : List String :=
  let ps := normalizePatterns config
  let globPatterns := gitignoreToGlobPatterns glines
  let s1 := (includeSurvivors ps globPatterns glines fs).foldl addUnique []
  let s2 := (forceSurvivors ps fs).foldl addUnique s1
  s2.insertionSort fun a b => strLe a b = true

/-- `resolvePatterns` from the non-optimized `bundle.ts` variant: identical
except that no prune patterns are given to the glob, so the full ignore
evaluation runs on every candidate. -/
def resolvePatternsFull (config : BundleConfigInput) (glines : List String)
    (fs : List FSFile) : List String :=
  let ps := normalizePatterns config
  let s1 := (includeSurvivors ps [] glines fs).foldl addUnique []
  let s2 := (forceSurvivors ps fs).foldl addUnique s1
  s2.insertionSort fun a b => strLe a b = true

/-! ### Prompt resolution and `bundleOne` -/

/-- `s.startsWith(pre)` (string prefix test, stated on the character
lists). -/
def strStartsWith (s pre : String) : Bool :=
  pre.data.isPrefixOf s.data

/-- `expandPath` from `src/config.ts`: expand a leading `~/` to the home
directory (path join modelled as `/`-concatenation; `s.slice(2)` drops the
first two characters). -/
def expandPath (home p : String) : String :=
  if strStartsWith p "~/" then home ++ "/" ++ (⟨p.data.drop 2⟩ : String) else p

/-- Models `path.join(cwd, p)` for the paths the core builds. -/
def joinPath (a b : String) : String := a ++ "/" ++ b

/-- `content.trim() || undefined`. -/
def strOrNone (t : String) : Option String :=
  if t = "" then none else some t

/-- `resolvePrompt` from `src/bundle.ts`: prompts starting with `./`,
`../` or `~/` are file paths whose content (trimmed) becomes the prompt;
a read failure (`none`) propagates; other prompts are trimmed inline. -/
def resolvePrompt (readF : String → Option String) (home cwd : String) :
    Option String → Option (Option String)
  | none => some none
  | some p =>
    if strStartsWith p "./" || strStartsWith p "../" then
      match readF (joinPath cwd p) with
      | none => none
      | some content => some (strOrNone (jsTrim content))
    else if strStartsWith p "~/" then
      match readF (expandPath home p) with
      | none => none
      | some content => some (strOrNone (jsTrim content))
    else some (strOrNone (jsTrim p))

/-- `bundleOne` from `src/bundle.ts`, given the already-resolved file list
(pattern resolution is `resolvePatterns` above): resolve the prompt, then
create the bundle; each file is read at `cwd/<path>`; any failure
propagates. -/
def bundleOneRead (readF : String → Option String) (home cwd : String)
    (files : List String) (includeIndex : Bool) (prompt : Option String) :
    Option BundleResult :=
  match resolvePrompt readF home cwd prompt with
  | none => none
  | some p =>
    createBundleRead (fun f => readF (joinPath cwd f)) files
      { includeIndex := includeIndex, prompt := p }

/-! ### Reference line layout (used to state content/index consistency) -/

/-- The rendered lines of one file block: its separator line followed by
the lines of its content with a single trailing newline stripped. -/
def fileBlockLines (i : Nat) (p c : String) : List String :=
  formatSeparator i p :: splitLines (stripTrailingNl c)

/-- The rendered lines of the bundle body (all file blocks in order),
numbering separators from `i`. -/
def bodyLines : List (String × String) → Nat → List String
  | [], _ => []
  | (p, c) :: rest, i => fileBlockLines i p c ++ bodyLines rest (i + 1)

/-! ## Lemma layer: strings and line splitting -/

theorem splitChar_ne_nil (sep : Char) (l : List Char) : splitChar sep l ≠ [] := by
  induction l with
  | nil => simp [splitChar]
  | cons c rest ih =>
    simp only [splitChar]
    split
    · simp
    · cases h : splitChar sep rest with
      | nil => exact absurd h ih
      | cons a as => simp

theorem splitChar_append_sep (sep : Char) (a b : List Char) :
    splitChar sep (a ++ sep :: b) = splitChar sep a ++ splitChar sep b := by
  induction a with
  | nil => simp [splitChar]
  | cons c rest ih =>
    by_cases hc : c = sep
    · simp [splitChar, hc, ih]
    · simp only [List.cons_append, splitChar, if_neg hc, List.append_eq]
      rw [ih]
      cases h : splitChar sep rest with
      | nil => exact absurd h (splitChar_ne_nil sep rest)
      | cons x xs => simp [h]

theorem splitChar_of_not_mem {sep : Char} {l : List Char} (h : sep ∉ l) :
    splitChar sep l = [l] := by
  induction l with
  | nil => rfl
  | cons c rest ih =>
    simp only [List.mem_cons, not_or] at h
    have hc : ¬ c = sep := fun hh => h.1 hh.symm
    simp [splitChar, hc, ih h.2]

theorem length_splitChar (sep : Char) (l : List Char) :
    (splitChar sep l).length = (l.filter fun c => c == sep).length + 1 := by
  induction l with
  | nil => rfl
  | cons c rest ih =>
    by_cases hc : c = sep
    · subst hc
      simp [splitChar, List.filter_cons, ih]
    · simp only [splitChar, if_neg hc, List.filter_cons]
      rw [if_neg (by simpa using hc)]
      cases h : splitChar sep rest with
      | nil => exact absurd h (splitChar_ne_nil sep rest)
      | cons x xs =>
        rw [h] at ih
        simpa using ih

theorem splitLines_append_nl (a b : String) :
    splitLines (a ++ "\n" ++ b) = splitLines a ++ splitLines b := by
  have : (a ++ "\n" ++ b).data = a.data ++ '\n' :: b.data := by
    simp [String.data_append]
  simp [splitLines, this, splitChar_append_sep]

theorem splitLines_of_noNl {s : String} (h : noNl s) : splitLines s = [s] := by
  simp [splitLines, splitChar_of_not_mem h]

theorem length_splitLines (s : String) :
    (splitLines s).length = matchNlCount s + 1 := by
  simp [splitLines, matchNlCount, length_splitChar]

theorem splitLines_ne_nil (s : String) : splitLines s ≠ [] := by
  simp [splitLines, splitChar_ne_nil]

theorem splitLines_joinNl (parts : List String) (h : parts ≠ []) :
    splitLines (joinNl parts) = (parts.map splitLines).flatten := by
  induction parts with
  | nil => exact absurd rfl h
  | cons s rest ih =>
    cases rest with
    | nil => simp [joinNl, splitLines]
    | cons r rs =>
      simp only [joinNl, splitLines_append_nl, List.map_cons, List.flatten_cons]
      rw [show joinNl (r :: rs) = joinNl (r :: rs) from rfl] at ih
      rw [ih (by simp)]
      simp

theorem splitLines_joinNl_of_noNl {parts : List String} (h : parts ≠ [])
    (hnl : ∀ s ∈ parts, noNl s) : splitLines (joinNl parts) = parts := by
  rw [splitLines_joinNl parts h]
  induction parts with
  | nil => rfl
  | cons s rest ih =>
    simp only [List.map_cons, List.flatten_cons,
      splitLines_of_noNl (hnl s (by simp))]
    cases rest with
    | nil => simp
    | cons r rs =>
      rw [ih (by simp) (fun t ht => hnl t (List.mem_cons_of_mem _ ht))]
      simp

/-- The number of rendered lines of a file whose stored content has one
trailing newline stripped: `countLines` of the content, or one line for an
empty file. -/
theorem length_splitLines_stripTrailingNl (s : String) :
    (splitLines (stripTrailingNl s)).length = max 1 (countLines s) := by
  by_cases hs : s = ""
  · subst hs; rfl
  · have hd : s.data ≠ [] := fun h => hs (by cases s; simp_all)
    unfold stripTrailingNl countLines
    by_cases he : endsWithNl s
    · rw [if_pos he, if_neg hs, if_pos he]
      obtain ⟨d, hdata⟩ : ∃ d, s.data = d ++ ['\n'] := by
        rcases List.eq_nil_or_concat s.data with h | ⟨d, c, h⟩
        · exact absurd h hd
        · refine ⟨d, ?_⟩
          have : s.data.getLast? = some '\n' := by
            simpa [endsWithNl] using he
          rw [h] at this ⊢
          simp [List.getLast?_concat] at this
          simp [this]
      have h1 : (splitLines (⟨s.data.dropLast⟩ : String)).length =
          (s.data.dropLast.filter fun c => c == '\n').length + 1 := by
        simpa [matchNlCount] using length_splitLines ⟨s.data.dropLast⟩
      rw [h1, hdata]
      simp [matchNlCount, hdata, List.filter_append]
    · rw [if_neg he, if_neg hs, if_neg he]
      rw [length_splitLines]
      omega

/-! ## Claim theorems: countLines, isBinary, empty bundle -/

/-- Claim C5: `countLines` returns 0 on the empty string, and otherwise the
number of newline occurrences plus one unless the string ends with a
newline; with the five concrete example values. -/
theorem countLines_spec :
    countLines "" = 0 ∧
    (∀ s : String, s ≠ "" →
      countLines s =
        (if endsWithNl s then s.data.count '\n' else s.data.count '\n' + 1)) ∧
    countLines "a" = 1 ∧ countLines "a\n" = 1 ∧
    countLines "a\nb" = 2 ∧ countLines "a\nb\n" = 2 := by
  refine ⟨rfl, fun s hs => ?_, by decide, by decide, by decide, by decide⟩
  have : matchNlCount s = s.data.count '\n' := by
    simp [matchNlCount, List.count_eq_countP, List.countP_eq_length_filter]
  rw [countLines, if_neg hs, this]

/-- Witness for C5 at the concrete input `"a\nb"`. -/
theorem countLines_spec_witness :
    countLines "a\nb" =
      (if endsWithNl "a\nb" then ("a\nb").data.count '\n'
        else ("a\nb").data.count '\n' + 1) :=
  countLines_spec.2.1 "a\nb" (by decide)

theorem mem_foldl_addUnique (l : List String) (acc : List String) (x : String) :
    x ∈ l.foldl addUnique acc ↔ x ∈ acc ∨ x ∈ l := by
  induction l generalizing acc with
  | nil => simp
  | cons a as ih =>
    simp only [List.foldl_cons, ih, addUnique]
    split
    · rename_i ha
      constructor
      · rintro (h | h)
        · exact Or.inl h
        · exact Or.inr (List.mem_cons_of_mem _ h)
      · rintro (h | h)
        · exact Or.inl h
        · rcases List.mem_cons.mp h with rfl | h
          · exact Or.inl ha
          · exact Or.inr h
    · simp only [List.mem_append, List.mem_singleton, List.mem_cons]
      tauto

/-- Membership in a resolver result comes from one of the two survivor
lists. -/
theorem mem_resolvePatterns {config : BundleConfigInput} {glines : List String}
    {fs : List FSFile} {p : String} (h : p ∈ resolvePatterns config glines fs) :
    p ∈ includeSurvivors (normalizePatterns config)
          (gitignoreToGlobPatterns glines) glines fs ∨
      p ∈ forceSurvivors (normalizePatterns config) fs := by
  unfold resolvePatterns at h
  have h2 := (List.perm_insertionSort _ _).mem_iff.mp h
  rcases (mem_foldl_addUnique _ _ _).mp h2 with h3 | h3
  · rcases (mem_foldl_addUnique _ _ _).mp h3 with h4 | h4
    · simp at h4
    · exact Or.inl h4
  · exact Or.inr h3

theorem mem_includeSurvivors_not_binary {ps : PatternSet} {gp glines : List String}
    {fs : List FSFile} {p : String} (h : p ∈ includeSurvivors ps gp glines fs) :
    isBinary (fileBytes fs p) = false := by
  unfold includeSurvivors at h
  split at h
  · simp at h
  · have := List.of_mem_filter h
    simp only [Bool.and_eq_true, Bool.not_eq_true'] at this
    exact this.2

theorem mem_forceSurvivors_not_binary {ps : PatternSet} {fs : List FSFile}
    {p : String} (h : p ∈ forceSurvivors ps fs) :
    isBinary (fileBytes fs p) = false := by
  unfold forceSurvivors at h
  split at h
  · simp at h
  · have := List.of_mem_filter h
    simp only [Bool.and_eq_true, Bool.not_eq_true'] at this
    exact this.2

/-- Claim C7: a file is classified binary exactly when it is non-empty and
the first `min size 8192` bytes contain a null byte; an empty file is never
binary; and a binary file never appears in a resolver result, no matter
which patterns match it. -/
theorem isBinary_spec :
    (∀ bytes : List Nat, isBinary bytes = true ↔
      bytes ≠ [] ∧ (bytes.take (min bytes.length 8192)).contains 0 = true) ∧
    isBinary [] = false ∧
    (∀ (config : BundleConfigInput) (glines : List String) (fs : List FSFile)
      (p : String), isBinary (fileBytes fs p) = true →
        p ∉ resolvePatterns config glines fs) := by
  refine ⟨fun bytes => ?_, rfl, fun config glines fs p hbin hmem => ?_⟩
  · unfold isBinary BINARY_CHECK_SIZE
    split
    · rename_i h
      simp [List.length_eq_zero.mp h]
    · rename_i h
      have hne : bytes ≠ [] := fun hn => h (by simp [hn])
      simp [hne]
  · rcases mem_resolvePatterns hmem with h | h
    · rw [mem_includeSurvivors_not_binary h] at hbin; cases hbin
    · rw [mem_forceSurvivors_not_binary h] at hbin; cases hbin

/-- Witness for C7: the two-byte file `[1, 0]` is binary and absent from a
resolver run that force-includes everything. -/
theorem isBinary_spec_witness :
    isBinary (fileBytes [⟨"a.bin", [1, 0]⟩] "a.bin") = true ∧
      "a.bin" ∉ resolvePatterns (.arr ["+**/*"]) [] [⟨"a.bin", [1, 0]⟩] :=
  ⟨by decide, isBinary_spec.2.2 (.arr ["+**/*"]) [] [⟨"a.bin", [1, 0]⟩] "a.bin"
    (by decide)⟩

/-- Claim C8: `createBundle` on an empty file list renders the literal
empty-index block when the index is included and the empty string when it
is not, with the prompt block prepended in either case, and returns an
empty index. -/
theorem createBundle_empty_spec (opts : BundleOptions) :
    createBundle [] opts =
      { content :=
          (match normalizePrompt opts.prompt with
            | none => ""
            | some p => p ++ "\n\n---\n\n") ++
          (if opts.includeIndex then "# Index\n# (empty)" else ""),
        index := [] } := by
  unfold createBundle
  cases h : normalizePrompt opts.prompt with
  | none =>
    cases hi : opts.includeIndex <;>
      simp [buildEntries, buildParts, formatIndex, joinNl, h, hi] <;>
      apply String.ext <;> simp [String.data_append]
  | some p =>
    cases hi : opts.includeIndex <;>
      simp [buildEntries, buildParts, formatIndex, joinNl, h, hi] <;>
      apply String.ext <;> simp [String.data_append]

/-! ## Lemma layer: the index-building loop -/

theorem shiftEntry_zero (e : FileEntry) : shiftEntry 0 e = e := by
  cases e; simp [shiftEntry]

theorem map_shiftEntry_zero (l : List FileEntry) : l.map (shiftEntry 0) = l := by
  induction l with
  | nil => rfl
  | cons e rest ih => simp [shiftEntry_zero, ih]

theorem buildEntries_length (files : List (String × String)) (cur : Nat) :
    (buildEntries files cur).length = files.length := by
  induction files generalizing cur with
  | nil => rfl
  | cons f rest ih => cases f; simp [buildEntries, ih]

theorem buildEntries_fields (files : List (String × String)) (cur k : Nat)
    (e : FileEntry) (p c : String) (he : (buildEntries files cur)[k]? = some e)
    (hf : files[k]? = some (p, c)) :
    e.path = p ∧ e.lines = countLines c ∧
      e.endLine = e.startLine + (countLines c - 1) := by
  induction files generalizing cur k with
  | nil => simp [buildEntries] at he
  | cons f rest ih =>
    obtain ⟨fp, fc⟩ := f
    cases k with
    | zero =>
      simp [buildEntries] at he
      simp at hf
      obtain ⟨rfl, rfl⟩ := hf
      simp [← he]
    | succ k =>
      simp only [buildEntries, List.getElem?_cons_succ] at he hf
      exact ih _ _ he hf

theorem buildEntries_start_lb (files : List (String × String)) (cur k : Nat)
    (e : FileEntry) (he : (buildEntries files cur)[k]? = some e) :
    cur + 1 ≤ e.startLine := by
  induction files generalizing cur k with
  | nil => simp [buildEntries] at he
  | cons f rest ih =>
    obtain ⟨fp, fc⟩ := f
    cases k with
    | zero =>
      simp [buildEntries] at he
      simp [← he]
    | succ k =>
      simp only [buildEntries, List.getElem?_cons_succ] at he
      have := ih _ _ he
      omega

theorem buildEntries_consec (files : List (String × String)) (cur k : Nat)
    (e1 e2 : FileEntry) (h1 : (buildEntries files cur)[k]? = some e1)
    (h2 : (buildEntries files cur)[k + 1]? = some e2) :
    e2.startLine = e1.endLine + 2 := by
  induction files generalizing cur k with
  | nil => simp [buildEntries] at h1
  | cons f rest ih =>
    obtain ⟨fp, fc⟩ := f
    cases k with
    | zero =>
      simp only [buildEntries, List.getElem?_cons_zero, Option.some.injEq] at h1
      simp only [buildEntries, List.getElem?_cons_succ] at h2
      cases rest with
      | nil => simp [buildEntries] at h2
      | cons g r2 =>
        obtain ⟨gp, gc⟩ := g
        simp only [buildEntries, List.getElem?_cons_zero, Option.some.injEq] at h2
        subst h1
        subst h2
        simp
    | succ k =>
      simp only [buildEntries, List.getElem?_cons_succ] at h1 h2
      exact ih _ _ h1 h2

/-- The index of a rendered bundle is the no-header index shifted uniformly
by the header size: `fileCount + 2 + promptLines` with the index block,
`promptLines` without. -/
theorem createBundle_index (files : List (String × String)) (opts : BundleOptions) :
    (createBundle files opts).index =
      (buildEntries files 1).map (shiftEntry
        (if opts.includeIndex then
            files.length + 2 +
              (match normalizePrompt opts.prompt with
                | none => 0
                | some p => countLines p + 3)
          else
            match normalizePrompt opts.prompt with
            | none => 0
            | some p => countLines p + 3)) := by
  unfold createBundle
  cases hp : normalizePrompt opts.prompt <;> cases hi : opts.includeIndex <;>
    simp [hp, hi, buildEntries_length, map_shiftEntry_zero]

/-- The no-header index (index suppressed, no prompt) is exactly the
unshifted loop output. -/
theorem createBundle_index_noheader (files : List (String × String)) :
    (createBundle files { includeIndex := false, prompt := none }).index =
      buildEntries files 1 := by
  rw [createBundle_index]
  simp [normalizePrompt, map_shiftEntry_zero]

/-- Claim C2: `createBundle` shifts the no-header line numbers by exactly
`fileCount + 2 + promptLines` when the index is included and by
`promptLines` alone when it is not, where `promptLines` is 0 without a
prompt and `countLines prompt + 3` with one; with the two worked examples
(two files of 1 and 3 lines: first content line 6, separator line 5; a
one-line prompt and one 1-line file: the content starts with the prompt
frame and `startLine` is the no-header 2 plus `1 + 2` plus
`promptLines = 4`). -/
theorem createBundle_header_shift_spec :
    (∀ (files : List (String × String)) (opts : BundleOptions),
      (createBundle files opts).index =
        ((createBundle files { includeIndex := false, prompt := none }).index).map
          (shiftEntry
            (let promptLines :=
              match normalizePrompt opts.prompt with
              | none => 0
              | some p => countLines p + 3
            if opts.includeIndex then files.length + 2 + promptLines
            else promptLines))) ∧
    ((createBundle [("a.ts", "const a = 1;\n"), ("b.ts", "1\n2\n3\n")] {}).index.map
        (fun e => e.startLine) = [6, 8] ∧
      (splitLines (createBundle [("a.ts", "const a = 1;\n"), ("b.ts", "1\n2\n3\n")]
          {}).content)[4]? = some "#==> [1] a.ts <==") ∧
    (("Review this.\n\n---\n\n").data.isPrefixOf
        (createBundle [("a.ts", "x\n")] { prompt := some "Review this." }).content.data ∧
      normalizePrompt (some "Review this.") = some "Review this." ∧
      countLines "Review this." + 3 = 4 ∧
      (createBundle [("a.ts", "x\n")] { prompt := some "Review this." }).index.map
        (fun e => e.startLine) = [2 + (1 + 2) + 4]) := by
  refine ⟨fun files opts => ?_, ⟨by decide, by decide⟩, by decide, by decide,
    by decide, by decide⟩
  rw [createBundle_index, createBundle_index_noheader]

/-- Claim C10: the index line ranges are well-formed and non-overlapping:
`startLine ≤ endLine`, with equality exactly when the source file has at
most one line, and each next entry starts exactly two lines after the
previous one ends (the separator line between them). -/
theorem index_ranges_spec (files : List (String × String)) (opts : BundleOptions) :
    (∀ (k : Nat) (e : FileEntry) (p c : String),
      (createBundle files opts).index[k]? = some e → files[k]? = some (p, c) →
        e.startLine ≤ e.endLine ∧ (e.endLine = e.startLine ↔ countLines c ≤ 1)) ∧
    (∀ (k : Nat) (e1 e2 : FileEntry),
      (createBundle files opts).index[k]? = some e1 →
        (createBundle files opts).index[k + 1]? = some e2 →
          e2.startLine = e1.endLine + 2) := by
  constructor
  · intro k e p c he hf
    rw [createBundle_index, List.getElem?_map] at he
    cases hb : (buildEntries files 1)[k]? with
    | none => rw [hb] at he; simp at he
    | some e0 =>
      rw [hb] at he
      simp at he
      obtain ⟨-, -, hend⟩ := buildEntries_fields files 1 k e0 p c hb hf
      subst he
      simp [shiftEntry]
      omega
  · intro k e1 e2 h1 h2
    rw [createBundle_index, List.getElem?_map] at h1 h2
    cases hb1 : (buildEntries files 1)[k]? with
    | none => rw [hb1] at h1; simp at h1
    | some f1 =>
      cases hb2 : (buildEntries files 1)[k + 1]? with
      | none => rw [hb2] at h2; simp at h2
      | some f2 =>
        rw [hb1] at h1; rw [hb2] at h2
        simp at h1 h2
        have := buildEntries_consec files 1 k f1 f2 hb1 hb2
        subst h1; subst h2
        simp [shiftEntry]
        omega

/-- Witness for C10: the two-file bundle of the acceptance test. -/
theorem index_ranges_spec_witness :
    (6 ≤ 6 ∧ (6 = 6 ↔ countLines "const a = 1;\n" ≤ 1)) ∧ 8 = 6 + 2 :=
  ⟨(index_ranges_spec [("a.ts", "const a = 1;\n"), ("b.ts", "1\n2\n3\n")] {}).1
      0 ⟨"a.ts", 1, 6, 6⟩ "a.ts" "const a = 1;\n" (by decide) (by decide),
    (index_ranges_spec [("a.ts", "const a = 1;\n"), ("b.ts", "1\n2\n3\n")] {}).2
      0 ⟨"a.ts", 1, 6, 6⟩ ⟨"b.ts", 3, 8, 10⟩ (by decide) (by decide)⟩

/-! ## Lemma layer: fallible reads -/

theorem readAll_eq_none_iff (readF : String → Option String) (files : List String) :
    readAll readF files = none ↔ ∃ f ∈ files, readF f = none := by
  induction files with
  | nil => simp [readAll]
  | cons f rest ih =>
    cases hf : readF f with
    | none => simp [readAll, hf]
    | some c =>
      cases hr : readAll readF rest with
      | none =>
        simp only [readAll, hf, hr, List.mem_cons, exists_eq_or_imp]
        have hrest : ∃ g ∈ rest, readF g = none := ih.mp hr
        simp [hf, hrest]
      | some cs =>
        simp only [readAll, hf, hr, List.mem_cons, exists_eq_or_imp]
        have hrest : ¬ ∃ g ∈ rest, readF g = none := fun hc => by
          simp [ih.mpr hc] at hr
        simp [hf, hrest]

theorem readAll_length {readF : String → Option String} {files : List String}
    {cs : List String} (h : readAll readF files = some cs) :
    cs.length = files.length := by
  induction files generalizing cs with
  | nil => simp [readAll] at h; simp [← h]
  | cons f rest ih =>
    simp only [readAll] at h
    cases hf : readF f with
    | none => rw [hf] at h; cases h
    | some c =>
      rw [hf] at h
      cases hr : readAll readF rest with
      | none => rw [hr] at h; cases h
      | some cs2 =>
        rw [hr] at h
        simp at h
        rw [← h]
        simp [ih hr]

/-- Claim C9: a failed read of any bundled file, or of a file-path prompt,
aborts the whole operation with no partial result; when every read
succeeds, one result is produced that renders every resolved file. -/
theorem error_propagation_spec :
    (∀ (readF : String → Option String) (files : List String) (opts : BundleOptions),
      (∃ f ∈ files, readF f = none) → createBundleRead readF files opts = none) ∧
    (∀ (readF : String → Option String) (files : List String) (opts : BundleOptions),
      (∀ f ∈ files, (readF f).isSome) →
        ∃ r, createBundleRead readF files opts = some r ∧
          r.index.length = files.length) ∧
    (∀ (readF : String → Option String) (home cwd : String) (files : List String)
      (includeIndex : Bool) (p : String),
      (strStartsWith p "./" || strStartsWith p "../") = true →
        readF (joinPath cwd p) = none →
          bundleOneRead readF home cwd files includeIndex (some p) = none) ∧
    (∀ (readF : String → Option String) (home cwd : String) (files : List String)
      (includeIndex : Bool) (p : String),
      (strStartsWith p "./" || strStartsWith p "../") = false →
        strStartsWith p "~/" = true →
          readF (expandPath home p) = none →
            bundleOneRead readF home cwd files includeIndex (some p) = none) ∧
    (∀ (readF : String → Option String) (home cwd : String) (files : List String)
      (includeIndex : Bool) (prompt : Option String),
      (∃ f ∈ files, readF (joinPath cwd f) = none) →
        bundleOneRead readF home cwd files includeIndex prompt = none) := by
  have habort : ∀ (readF : String → Option String) (files : List String)
      (opts : BundleOptions), (∃ f ∈ files, readF f = none) →
        createBundleRead readF files opts = none := by
    intro readF files opts h
    unfold createBundleRead
    rw [(readAll_eq_none_iff readF files).mpr h]
  refine ⟨habort, ?_, ?_, ?_, ?_⟩
  · intro readF files opts h
    cases hr : readAll readF files with
    | none =>
      obtain ⟨f, hf, hfn⟩ := (readAll_eq_none_iff readF files).mp hr
      have := h f hf
      rw [hfn] at this
      cases this
    | some cs =>
      refine ⟨createBundle (files.zip cs) opts, ?_, ?_⟩
      · unfold createBundleRead
        rw [hr]
      · rw [createBundle_index]
        simp [buildEntries_length, List.length_zip, readAll_length hr]
  · intro readF home cwd files includeIndex p hpath hread
    simp [bundleOneRead, resolvePrompt, hpath, hread]
  · intro readF home cwd files includeIndex p hpath hpath2 hread
    simp [bundleOneRead, resolvePrompt, hpath, hpath2, hread]
  · intro readF home cwd files includeIndex prompt h
    unfold bundleOneRead
    cases hp : resolvePrompt readF home cwd prompt with
    | none => rfl
    | some q =>
      simp only
      exact habort _ files _ h

/-- Witness for C9: one missing file and one missing prompt file. -/
theorem error_propagation_spec_witness :
    createBundleRead (fun _ => none) ["a.ts"] {} = none ∧
      bundleOneRead (fun _ => none) "/home/u" "/cwd" [] true (some "./p.md") = none :=
  ⟨error_propagation_spec.1 (fun _ => none) ["a.ts"] {} ⟨"a.ts", by simp, rfl⟩,
    error_propagation_spec.2.2.1 (fun _ => none) "/home/u" "/cwd" [] true "./p.md"
      (by decide) rfl⟩

/-! ## Lemma layer: glob and gitignore -/

/-- A wildcard-free segment pattern matches exactly itself. -/
theorem segMatch_literal {pat : List Char} (h1 : '*' ∉ pat) (h2 : '?' ∉ pat) :
    ∀ s : List Char, segMatch pat s = true ↔ pat = s := by
  induction pat with
  | nil =>
    intro s
    cases s <;> simp [segMatch]
  | cons p ps ih =>
    simp only [List.mem_cons, not_or] at h1 h2
    have hp : p ≠ '*' := fun h => h1.1 h.symm
    have hq : p ≠ '?' := fun h => h2.1 h.symm
    intro s
    cases s with
    | nil => simp [segMatch, hp]
    | cons c cs =>
      rw [show segMatch (p :: ps) (c :: cs) =
          ((p == '?' || p == c) && segMatch ps cs) from by simp [segMatch, hp]]
      rw [beq_eq_false_iff_ne.mpr hq]
      simp only [Bool.false_or, Bool.and_eq_true, beq_iff_eq, List.cons.injEq]
      rw [ih h1.2 h2.2 cs]

theorem splitSlash_of_no_slash {s : String} (h : '/' ∉ s.data) :
    splitSlash s = [s] := by
  simp [splitSlash, splitChar_of_not_mem h]

/-- Splitting the generated prune glob `**/<name>/**` on `/`. -/
theorem splitSlash_prune (t : String) (h : '/' ∉ t.data) :
    splitSlash ("**/" ++ t ++ "/**") = ["**", t, "**"] := by
  have hdata : ("**/" ++ t ++ "/**").data =
      ['*', '*'] ++ '/' :: (t.data ++ '/' :: ['*', '*']) := by
    simp [String.data_append]
  simp only [splitSlash, hdata, splitChar_append_sep]
  rw [splitChar_of_not_mem (by decide : '/' ∉ ['*', '*']),
    splitChar_of_not_mem h]
  rfl

theorem globSegs_single_star (cs : List String) :
    globSegs ["**"] cs = !cs.isEmpty := by
  simp [globSegs]

theorem globSegs_tail_star {t : String} (ht : t ≠ "**") :
    ∀ suf : List String, globSegs [t, "**"] suf = true →
      ∃ mid rest, suf = mid :: rest ∧ rest ≠ [] ∧
        segMatch t.data mid.data = true := by
  intro suf h
  cases suf with
  | nil => simp [globSegs, ht] at h
  | cons mid rest =>
    rw [show globSegs [t, "**"] (mid :: rest) =
        (segMatch t.data mid.data && !rest.isEmpty) from by
      simp [globSegs, ht, globSegs_single_star]] at h
    simp only [Bool.and_eq_true, Bool.not_eq_true'] at h
    refine ⟨mid, rest, rfl, ?_, h.1⟩
    intro hn
    rw [hn] at h
    simp at h

/-- A match of `["**", t, "**"]` positions `t` at a non-final component. -/
theorem globSegs_prune_decomp (t : String) (ht : t ≠ "**") :
    ∀ comps : List String, globSegs ["**", t, "**"] comps = true →
      ∃ pre mid suf, comps = pre ++ mid :: suf ∧ suf ≠ [] ∧
        segMatch t.data mid.data = true := by
  intro comps h
  rw [show globSegs ["**", t, "**"] comps =
      (comps.tails.any fun suf => globSegs [t, "**"] suf) from by
    simp [globSegs]] at h
  obtain ⟨suf, hmem, hm⟩ := List.any_eq_true.mp h
  obtain ⟨mid, rest, rfl, hrest, hseg⟩ := globSegs_tail_star ht suf hm
  obtain ⟨pre, hpre⟩ := (List.mem_tails _ _).mp hmem
  exact ⟨pre, mid, rest, hpre.symm, hrest, hseg⟩

theorem mem_ancestorDirs (x : String) :
    ∀ (pre suf : List String), suf ≠ [] →
      (pre ++ [x]) ∈ ancestorDirs (pre ++ x :: suf) := by
  intro pre
  induction pre with
  | nil =>
    intro suf hs
    cases suf with
    | nil => exact absurd rfl hs
    | cons s ss => simp [ancestorDirs]
  | cons a pre ih =>
    intro suf hs
    have key : ancestorDirs (a :: (pre ++ x :: suf)) =
        [a] :: (ancestorDirs (pre ++ x :: suf)).map (a :: ·) := by
      cases pre with
      | nil =>
        cases suf with
        | nil => exact absurd rfl hs
        | cons s ss => simp [ancestorDirs]
      | cons q qs => simp [ancestorDirs]
    simp only [List.cons_append, key, List.mem_cons]
    refine Or.inr ?_
    rw [List.mem_map]
    exact ⟨pre ++ [x], ih suf hs, by simp⟩

/-- Parsing a plain line (non-blank, no comment marker, no negation, no
slash anywhere) yields the unanchored single-segment rule. -/
theorem parseIgnoreLine_simple (line : String)
    (h0 : jsTrim line ≠ "") (h1 : startsWithChar (jsTrim line) '#' = false)
    (h2 : startsWithChar (jsTrim line) '!' = false)
    (h3 : '/' ∉ (jsTrim line).data) :
    parseIgnoreLine line =
      some ⟨false, false, false, [jsTrim line]⟩ := by
  have hlast : endsWithChar (jsTrim line) '/' = false := by
    simp only [endsWithChar, beq_eq_false_iff_ne, ne_eq]
    intro hc
    exact h3 (List.mem_of_getLast?_eq_some hc)
  have hhead : startsWithChar (jsTrim line) '/' = false := by
    simp only [startsWithChar, beq_eq_false_iff_ne, ne_eq]
    intro hc
    exact h3 (List.mem_of_mem_head? (by rw [hc]; simp))
  have hcont : (jsTrim line).data.contains '/' = false := by
    simp only [List.contains_eq_any_beq, List.any_eq_false]
    intro c hc hb
    exact h3 (by rwa [← eq_of_beq hb] at hc)
  simp [parseIgnoreLine, h0, h1, h2, hlast, hcont, hhead,
    splitSlash_of_no_slash h3]
  exact h3

/-- Whatever else a parsed rule contains, its negation flag is the
leading-`!` test of the trimmed line. -/
theorem parseIgnoreLine_negated {l : String} {r : IgnoreRule}
    (h : parseIgnoreLine l = some r) :
    r.negated = startsWithChar (jsTrim l) '!' := by
  simp only [parseIgnoreLine] at h
  repeat' split at h
  all_goals cases h
  all_goals rfl

theorem foldl_ignore_eq_any (comps : List String) :
    ∀ (rules : List IgnoreRule) (b : Bool),
      (∀ r ∈ rules, r.negated = false) →
      rules.foldl (fun acc r => if ruleIgnoresPath r comps then !r.negated else acc) b =
        (b || rules.any fun r => ruleIgnoresPath r comps) := by
  intro rules
  induction rules with
  | nil => simp
  | cons r rest ih =>
    intro b hneg
    have hr : r.negated = false := hneg r (by simp)
    simp only [List.foldl_cons, List.any_cons]
    rw [ih _ (fun q hq => hneg q (List.mem_cons_of_mem _ hq))]
    cases hm : ruleIgnoresPath r comps <;> simp [hm, hr] <;> cases b <;> simp

/-- If some never-negated rule of the file ignores the path, the evaluator
says ignored. -/
theorem ignores_of_rule {glines : List String} {line : String} {r : IgnoreRule}
    (hmem : line ∈ glines)
    (hnoneg : ∀ l ∈ glines, startsWithChar (jsTrim l) '!' = false)
    (hparse : parseIgnoreLine line = some r) (path : String)
    (hmatch : ruleIgnoresPath r (splitSlash path) = true) :
    ignores glines path = true := by
  unfold ignores
  have hrules : ∀ q ∈ glines.filterMap parseIgnoreLine, q.negated = false := by
    intro q hq
    obtain ⟨l, hl, hpl⟩ := List.mem_filterMap.mp hq
    rw [parseIgnoreLine_negated hpl]
    exact hnoneg l hl
  rw [foldl_ignore_eq_any _ _ _ hrules]
  simp only [Bool.false_or, List.any_eq_true]
  exact ⟨r, List.mem_filterMap.mpr ⟨line, hmem, hparse⟩, hmatch⟩

/-- Membership in the prune-pattern list: the file has no negation line,
and the pattern is `**/<t>/**` for the trimmed content `t` of some line
that is non-blank, not a comment, slash-free and a simple name. -/
theorem mem_gitignoreToGlobPatterns {glines : List String} {pat : String}
    (h : pat ∈ gitignoreToGlobPatterns glines) :
    (∀ l ∈ glines, startsWithChar (jsTrim l) '!' = false) ∧
      ∃ line ∈ glines,
        jsTrim line ≠ "" ∧ startsWithChar (jsTrim line) '#' = false ∧
        '/' ∉ (jsTrim line).data ∧ '\\' ∉ (jsTrim line).data ∧
        (jsTrim line).data.all isSimpleNameChar = true ∧
        pat = "**/" ++ jsTrim line ++ "/**" := by
  simp only [gitignoreToGlobPatterns] at h
  split at h
  · simp at h
  · rename_i hneg
    simp only [Bool.not_eq_true, List.any_eq_false] at hneg
    refine ⟨fun l hl => by simpa using hneg l hl, ?_⟩
    obtain ⟨line, hline, hsome⟩ := List.mem_filterMap.mp h
    refine ⟨line, hline, ?_⟩
    split at hsome
    · cases hsome
    · rename_i hblank
      split at hsome
      · cases hsome
      · rename_i hspecial
        simp only [Bool.or_eq_true, decide_eq_true_eq, not_or,
          Bool.not_eq_true] at hblank hspecial
        have hslash : '/' ∉ (jsTrim line).data := by
          intro hc
          have := hspecial.1.2
          simp only [List.contains_eq_any_beq, List.any_eq_false] at this
          exact absurd rfl (this '/' hc)
        have hbslash : '\\' ∉ (jsTrim line).data := by
          intro hc
          have := hspecial.2
          simp only [List.contains_eq_any_beq, List.any_eq_false] at this
          exact absurd rfl (this '\\' hc)
        have hlast : endsWithChar (jsTrim line) '/' = false := by
          simp only [endsWithChar, beq_eq_false_iff_ne, ne_eq]
          intro hc
          exact hslash (List.mem_of_getLast?_eq_some hc)
        rw [hlast] at hsome
        simp only [Bool.false_eq_true, if_false] at hsome
        split at hsome
        · rename_i hname
          simp only [Bool.and_eq_true, decide_eq_true_eq] at hname
          simp only [Option.some.injEq] at hsome
          exact ⟨hblank.1, hblank.2, hslash, hbslash, hname.2, hsome.symm⟩
        · cases hsome

theorem simple_name_no_wildcards {t : String}
    (h : t.data.all isSimpleNameChar = true) :
    '*' ∉ t.data ∧ '?' ∉ t.data ∧ t ≠ "**" := by
  rw [List.all_eq_true] at h
  refine ⟨fun hc => ?_, fun hc => ?_, fun hc => ?_⟩
  · have := h '*' hc
    simp [isSimpleNameChar, Char.isAlphanum, Char.isAlpha, Char.isUpper,
      Char.isLower, Char.isDigit] at this
  · have := h '?' hc
    simp [isSimpleNameChar, Char.isAlphanum, Char.isAlpha, Char.isUpper,
      Char.isLower, Char.isDigit] at this
  · subst hc
    have := h '*' (by decide)
    simp [isSimpleNameChar, Char.isAlphanum, Char.isAlpha, Char.isUpper,
      Char.isLower, Char.isDigit] at this

/-- Soundness of the traversal pruning: any path matched by a derived prune
glob is ignored by the full evaluator. -/
theorem pruned_implies_ignored {glines : List String} {pat path : String}
    (hpat : pat ∈ gitignoreToGlobPatterns glines)
    (hmatch : globMatch pat path = true) :
    ignores glines path = true := by
  obtain ⟨hnoneg, line, hline, hblank, hhash, hslash, hbslash, hsimple, hpateq⟩ :=
    mem_gitignoreToGlobPatterns hpat
  obtain ⟨hstar, hquest, hstarstar⟩ := simple_name_no_wildcards hsimple
  set t := jsTrim line with ht
  rw [hpateq] at hmatch
  unfold globMatch at hmatch
  rw [splitSlash_prune t hslash] at hmatch
  obtain ⟨pre, mid, suf, hcomps, hsuf, hseg⟩ :=
    globSegs_prune_decomp t hstarstar (splitSlash path) hmatch
  have hmid : t = mid :=
    String.ext ((segMatch_literal hstar hquest mid.data).mp hseg)
  have hneg2 : startsWithChar t '!' = false := hnoneg line hline
  have hparse := parseIgnoreLine_simple line hblank hhash hneg2 hslash
  refine ignores_of_rule hline hnoneg hparse path ?_
  unfold ruleIgnoresPath
  refine Bool.or_eq_true_iff.mpr (Or.inr ?_)
  rw [List.any_eq_true]
  refine ⟨pre ++ [t], by rw [hcomps, hmid]; exact mem_ancestorDirs mid pre suf hsuf, ?_⟩
  unfold ruleMatchesEntity
  simp only [if_neg (by simp : ¬false = true)]
  rw [List.getLast?_concat]
  exact (segMatch_literal hstar hquest t.data).mpr rfl

/-! ## Claim theorems: pattern resolution -/

theorem globExpand_no_ignore (patterns : List String) (fs : List FSFile) :
    globExpand patterns [] fs =
      (fs.filter fun f => patterns.any fun p => globMatch p f.path).map (·.path) := by
  simp [globExpand]

/-- Dropping prune-glob matches before a filter that already rejects every
ignored path changes nothing. -/
theorem filter_map_filter_prune (glines : List String) (A : FSFile → Bool)
    (pred : String → Bool)
    (hpred : ∀ m, ignores glines m = true → pred m = false) :
    ∀ fs : List FSFile,
      (((fs.filter fun f => A f &&
          !((gitignoreToGlobPatterns glines).any fun ip => globMatch ip f.path)).map
            (·.path)).filter pred) =
        ((fs.filter A).map (·.path)).filter pred := by
  intro fs
  induction fs with
  | nil => rfl
  | cons f rest ih =>
    simp only [List.filter_cons]
    cases hA : A f with
    | false => simpa [hA] using ih
    | true =>
      cases hP : ((gitignoreToGlobPatterns glines).any fun ip =>
          globMatch ip f.path) with
      | false =>
        simp only [hA, hP, Bool.not_false, Bool.and_true, if_true,
          List.map_cons]
        rw [List.filter_cons, List.filter_cons, ih]
      | true =>
        have hig : ignores glines f.path = true := by
          obtain ⟨pat, hpat, hm⟩ := List.any_eq_true.mp hP
          exact pruned_implies_ignored hpat hm
        have hpf : pred f.path = false := hpred _ hig
        simpa [hA, hP, hpf] using ih

theorem includeSurvivors_prune (ps : PatternSet) (glines : List String)
    (fs : List FSFile) :
    includeSurvivors ps (gitignoreToGlobPatterns glines) glines fs =
      includeSurvivors ps [] glines fs := by
  unfold includeSurvivors
  split
  · rfl
  · rw [globExpand_no_ignore]
    unfold globExpand
    exact filter_map_filter_prune glines _ _
      (fun m h => by simp [h]) fs

/-- Claim C3: the traversal-pruning optimization never changes the result —
`resolvePatterns` with derived prune globs equals the full-evaluation
variant on every input — and any negation line disables the derivation of
prune globs entirely. -/
theorem prune_equivalence_spec :
    (∀ (config : BundleConfigInput) (glines : List String) (fs : List FSFile),
      resolvePatterns config glines fs = resolvePatternsFull config glines fs) ∧
    (∀ glines : List String,
      (∃ l ∈ glines, startsWithChar (jsTrim l) '!' = true) →
        gitignoreToGlobPatterns glines = []) := by
  constructor
  · intro config glines fs
    simp only [resolvePatterns, resolvePatternsFull]
    rw [includeSurvivors_prune]
  · rintro glines ⟨l, hl, hneg⟩
    unfold gitignoreToGlobPatterns
    rw [if_pos (List.any_eq_true.mpr ⟨l, hl, hneg⟩)]

/-- Witness for C3: a negated ignore file yields no prune globs, and the
two resolvers agree on a concrete working directory. -/
theorem prune_equivalence_spec_witness :
    resolvePatterns (.arr ["**/*"]) ["node_modules"]
        [⟨"node_modules/a.js", [1]⟩, ⟨"src/b.ts", [2]⟩] =
      resolvePatternsFull (.arr ["**/*"]) ["node_modules"]
        [⟨"node_modules/a.js", [1]⟩, ⟨"src/b.ts", [2]⟩] ∧
      gitignoreToGlobPatterns ["build", "!build/keep.txt"] = [] :=
  ⟨prune_equivalence_spec.1 (.arr ["**/*"]) ["node_modules"]
      [⟨"node_modules/a.js", [1]⟩, ⟨"src/b.ts", [2]⟩],
    prune_equivalence_spec.2 ["build", "!build/keep.txt"]
      ⟨"!build/keep.txt", by simp, by decide⟩⟩

theorem mem_includeSurvivors_not_excluded {ps : PatternSet} {gp glines : List String}
    {fs : List FSFile} {p : String} (h : p ∈ includeSurvivors ps gp glines fs) :
    isExcluded p ps.excl = false := by
  unfold includeSurvivors at h
  split at h
  · simp at h
  · have := List.of_mem_filter h
    simp only [Bool.and_eq_true, Bool.not_eq_true'] at this
    exact this.1.1

theorem mem_forceSurvivors_not_excluded {ps : PatternSet} {fs : List FSFile}
    {p : String} (h : p ∈ forceSurvivors ps fs) :
    isExcluded p ps.excl = false := by
  unfold forceSurvivors at h
  split at h
  · simp at h
  · have := List.of_mem_filter h
    simp only [Bool.and_eq_true, Bool.not_eq_true'] at this
    exact this.1

theorem nodup_foldl_addUnique (l : List String) :
    ∀ acc : List String, acc.Nodup → (l.foldl addUnique acc).Nodup := by
  induction l with
  | nil => exact fun acc h => h
  | cons x xs ih =>
    intro acc hacc
    simp only [List.foldl_cons]
    apply ih
    unfold addUnique
    split
    · exact hacc
    · rename_i hx
      simpa [List.nodup_append, hacc] using hx

theorem charListLe_total : ∀ a b : List Char,
    charListLe a b = true ∨ charListLe b a = true := by
  intro a
  induction a with
  | nil => intro b; left; cases b <;> simp [charListLe]
  | cons x as ih =>
    intro b
    cases b with
    | nil => right; simp [charListLe]
    | cons y bs =>
      by_cases h1 : x.toNat < y.toNat
      · left; simp [charListLe, h1]
      · by_cases h2 : y.toNat < x.toNat
        · right; simp [charListLe, h2]
        · rcases ih bs with h | h
          · left; simp [charListLe, h1, h2, h]
          · right; simp [charListLe, h1, h2, h]

theorem charListLe_trans : ∀ a b c : List Char, charListLe a b = true →
    charListLe b c = true → charListLe a c = true := by
  intro a
  induction a with
  | nil => intro b c _ _; cases c <;> simp [charListLe]
  | cons x as ih =>
    intro b c hab hbc
    cases b with
    | nil => simp [charListLe] at hab
    | cons y bs =>
      cases c with
      | nil => simp [charListLe] at hbc
      | cons z cs =>
        simp only [charListLe] at hab hbc ⊢
        by_cases h1 : x.toNat < y.toNat
        · by_cases h2 : y.toNat < z.toNat
          · simp [show x.toNat < z.toNat by omega]
          · by_cases h4 : z.toNat < y.toNat
            · rw [if_neg h2, if_pos h4] at hbc; cases hbc
            · simp [show x.toNat < z.toNat by omega]
        · by_cases h3 : y.toNat < x.toNat
          · rw [if_neg h1, if_pos h3] at hab; cases hab
          · by_cases h2 : y.toNat < z.toNat
            · simp [show x.toNat < z.toNat by omega]
            · by_cases h4 : z.toNat < y.toNat
              · rw [if_neg h2, if_pos h4] at hbc; cases hbc
              · rw [if_neg h1, if_neg h3] at hab
                rw [if_neg h2, if_neg h4] at hbc
                rw [if_neg (show ¬ x.toNat < z.toNat by omega),
                  if_neg (show ¬ z.toNat < x.toNat by omega)]
                exact ih bs cs hab hbc

/-- Claim C6: resolver output is lexicographically sorted ascending,
duplicate-free, and contains no path matching an exclude pattern. -/
theorem resolve_invariants_spec (config : BundleConfigInput) (glines : List String)
    (fs : List FSFile) :
    (resolvePatterns config glines fs).Sorted (fun a b => strLe a b = true) ∧
    (resolvePatterns config glines fs).Nodup ∧
    ∀ p ∈ resolvePatterns config glines fs,
      isExcluded p (normalizePatterns config).excl = false := by
  refine ⟨?_, ?_, ?_⟩
  · unfold resolvePatterns
    haveI : IsTotal String (fun a b => strLe a b = true) :=
      ⟨fun a b => charListLe_total a.data b.data⟩
    haveI : IsTrans String (fun a b => strLe a b = true) :=
      ⟨fun a b c => charListLe_trans a.data b.data c.data⟩
    exact List.sorted_insertionSort _ _
  · unfold resolvePatterns
    apply List.Perm.nodup (List.perm_insertionSort _ _).symm
    exact nodup_foldl_addUnique _ _ (nodup_foldl_addUnique _ _ List.nodup_nil)
  · intro p hp
    rcases mem_resolvePatterns hp with h | h
    · exact mem_includeSurvivors_not_excluded h
    · exact mem_forceSurvivors_not_excluded h

/-- Witness for C6: the exclusion invariant instantiated on a concrete
resolver run. -/
theorem resolve_invariants_spec_witness :
    isExcluded "src/a.ts"
        (normalizePatterns (.arr ["**/*.ts", "!**/*.spec.ts"])).excl = false :=
  (resolve_invariants_spec (.arr ["**/*.ts", "!**/*.spec.ts"]) []
      [⟨"src/a.ts", [104]⟩, ⟨"src/c.spec.ts", [100]⟩]).2.2 "src/a.ts" (by decide)

theorem mem_resolvePatterns_of_force {config : BundleConfigInput}
    {glines : List String} {fs : List FSFile} {f : FSFile} (hmem : f ∈ fs)
    (hforce : (normalizePatterns config).force.any
      (fun p => globMatch p f.path) = true)
    (hexc : isExcluded f.path (normalizePatterns config).excl = false)
    (hbin : isBinary (fileBytes fs f.path) = false) :
    f.path ∈ resolvePatterns config glines fs := by
  unfold resolvePatterns
  apply (List.perm_insertionSort _ _).mem_iff.mpr
  apply (mem_foldl_addUnique _ _ _).mpr
  right
  unfold forceSurvivors
  rw [if_neg (by
    obtain ⟨q, hq, -⟩ := List.any_eq_true.mp hforce
    intro hemp
    rw [List.isEmpty_iff] at hemp
    rw [hemp] at hq
    cases hq)]
  apply List.mem_filter.mpr
  refine ⟨?_, by simp [hexc, hbin]⟩
  unfold globExpand
  exact List.mem_map.mpr ⟨f, List.mem_filter.mpr ⟨hmem, by simp [hforce]⟩, rfl⟩

/-- Claim C4: a file matching a force pattern is included even when the
ignore evaluator would reject it, but exclude patterns and the binary test
still remove it. -/
theorem force_bypass_spec :
    (∀ (config : BundleConfigInput) (glines : List String) (fs : List FSFile)
      (f : FSFile), f ∈ fs →
      (normalizePatterns config).force.any (fun p => globMatch p f.path) = true →
      isExcluded f.path (normalizePatterns config).excl = false →
      isBinary (fileBytes fs f.path) = false →
      f.path ∈ resolvePatterns config glines fs) ∧
    (∀ (config : BundleConfigInput) (glines : List String) (fs : List FSFile)
      (path : String),
      isExcluded path (normalizePatterns config).excl = true →
      path ∉ resolvePatterns config glines fs) ∧
    (∀ (config : BundleConfigInput) (glines : List String) (fs : List FSFile)
      (path : String),
      isBinary (fileBytes fs path) = true →
      path ∉ resolvePatterns config glines fs) := by
  refine ⟨fun config glines fs f hmem hf he hb =>
      mem_resolvePatterns_of_force hmem hf he hb,
    fun config glines fs path hexc hmem => ?_,
    fun config glines fs path hbin hmem => ?_⟩
  · rcases mem_resolvePatterns hmem with h | h
    · rw [mem_includeSurvivors_not_excluded h] at hexc; cases hexc
    · rw [mem_forceSurvivors_not_excluded h] at hexc; cases hexc
  · rcases mem_resolvePatterns hmem with h | h
    · rw [mem_includeSurvivors_not_binary h] at hbin; cases hbin
    · rw [mem_forceSurvivors_not_binary h] at hbin; cases hbin

/-- Witness for C4: a gitignored file force-included by `+dist/**` appears;
an excluded or binary one does not. -/
theorem force_bypass_spec_witness :
    "dist/out.js" ∈ resolvePatterns (.arr ["+dist/**"]) ["dist"]
        [⟨"dist/out.js", [55]⟩] ∧
      "dist/out.js" ∉ resolvePatterns (.arr ["+dist/**", "!dist/**"]) ["dist"]
        [⟨"dist/out.js", [55]⟩] ∧
      "dist/bin" ∉ resolvePatterns (.arr ["+dist/**"]) ["dist"]
        [⟨"dist/bin", [0]⟩] :=
  ⟨force_bypass_spec.1 (.arr ["+dist/**"]) ["dist"] [⟨"dist/out.js", [55]⟩]
      ⟨"dist/out.js", [55]⟩ (by decide) (by decide) (by decide) (by decide),
    force_bypass_spec.2.1 (.arr ["+dist/**", "!dist/**"]) ["dist"]
      [⟨"dist/out.js", [55]⟩] "dist/out.js" (by decide),
    force_bypass_spec.2.2 (.arr ["+dist/**"]) ["dist"]
      [⟨"dist/bin", [0]⟩] "dist/bin" (by decide)⟩

/-! ## Lemma layer: rendered content decomposition (for C1) -/

theorem digitChar_ne_nl (m : Nat) : Nat.digitChar m ≠ '\n' := by
  unfold Nat.digitChar
  by_cases h0 : m = 0
  · rw [if_pos h0]; decide
  rw [if_neg h0]
  by_cases h1 : m = 1
  · rw [if_pos h1]; decide
  rw [if_neg h1]
  by_cases h2 : m = 2
  · rw [if_pos h2]; decide
  rw [if_neg h2]
  by_cases h3 : m = 3
  · rw [if_pos h3]; decide
  rw [if_neg h3]
  by_cases h4 : m = 4
  · rw [if_pos h4]; decide
  rw [if_neg h4]
  by_cases h5 : m = 5
  · rw [if_pos h5]; decide
  rw [if_neg h5]
  by_cases h6 : m = 6
  · rw [if_pos h6]; decide
  rw [if_neg h6]
  by_cases h7 : m = 7
  · rw [if_pos h7]; decide
  rw [if_neg h7]
  by_cases h8 : m = 8
  · rw [if_pos h8]; decide
  rw [if_neg h8]
  by_cases h9 : m = 9
  · rw [if_pos h9]; decide
  rw [if_neg h9]
  by_cases h10 : m = 10
  · rw [if_pos h10]; decide
  rw [if_neg h10]
  by_cases h11 : m = 11
  · rw [if_pos h11]; decide
  rw [if_neg h11]
  by_cases h12 : m = 12
  · rw [if_pos h12]; decide
  rw [if_neg h12]
  by_cases h13 : m = 13
  · rw [if_pos h13]; decide
  rw [if_neg h13]
  by_cases h14 : m = 14
  · rw [if_pos h14]; decide
  rw [if_neg h14]
  by_cases h15 : m = 15
  · rw [if_pos h15]; decide
  rw [if_neg h15]
  decide

theorem toDigitsCore_ne_nl (b : Nat) :
    ∀ (fuel n : Nat) (ds : List Char), (∀ c ∈ ds, c ≠ '\n') →
      ∀ c ∈ Nat.toDigitsCore b fuel n ds, c ≠ '\n' := by
  intro fuel
  induction fuel with
  | zero => intro n ds hds; exact hds
  | succ fuel ih =>
    intro n ds hds c hc
    simp only [Nat.toDigitsCore] at hc
    split at hc
    · rcases List.mem_cons.mp hc with rfl | h
      · exact digitChar_ne_nl _
      · exact hds c h
    · refine ih _ _ ?_ c hc
      intro x hx
      rcases List.mem_cons.mp hx with rfl | h
      · exact digitChar_ne_nl _
      · exact hds x h

theorem noNl_natToString (n : Nat) : noNl (toString n) := by
  intro hc
  have : (toString n).data = Nat.toDigitsCore 10 (n + 1) n [] := rfl
  rw [this] at hc
  exact toDigitsCore_ne_nl 10 (n + 1) n [] (by simp) '\n' hc rfl

theorem noNl_append {a b : String} (ha : noNl a) (hb : noNl b) :
    noNl (a ++ b) := by
  intro hc
  rw [String.data_append, List.mem_append] at hc
  rcases hc with h | h
  · exact ha h
  · exact hb h

theorem noNl_formatSeparator {p : String} (hp : noNl p) (i : Nat) :
    noNl (formatSeparator i p) := by
  unfold formatSeparator
  exact noNl_append (noNl_append (noNl_append (noNl_append (by decide)
    (noNl_natToString i)) (by decide)) hp) (by decide)

theorem noNl_padEnd {s : String} (hs : noNl s) (n : Nat) : noNl (padEnd s n) := by
  unfold padEnd
  refine noNl_append hs ?_
  intro hc
  have := List.eq_of_mem_replicate hc
  cases this

theorem noNl_indexEntryLine {e : FileEntry} (hp : noNl e.path) (i : Nat) :
    noNl (indexEntryLine i e) := by
  have hnum : noNl (padEnd ("[" ++ toString (i + 1) ++ "]") 5) :=
    noNl_padEnd (noNl_append (noNl_append (by decide) (noNl_natToString (i + 1)))
      (by decide)) 5
  have hword : noNl (if e.lines = 1 then "line" else "lines") := by
    split <;> decide
  unfold indexEntryLine
  exact noNl_append (noNl_append (noNl_append (noNl_append (noNl_append
    (noNl_append (noNl_append (noNl_append (noNl_append (noNl_append
    (noNl_append (noNl_append (by decide) hnum) (by decide)) hp) (by decide))
    (noNl_natToString _)) (by decide)) (noNl_natToString _)) (by decide))
    (noNl_natToString _)) (by decide)) hword) (by decide)

/-- The body of the bundle splits into the reference block layout. -/
theorem splitLines_joinNl_buildParts (files : List (String × String)) :
    ∀ i : Nat, files ≠ [] → (∀ pc ∈ files, noNl pc.1) →
      splitLines (joinNl (buildParts files i)) = bodyLines files i := by
  induction files with
  | nil => intro i h; exact absurd rfl h
  | cons f rest ih =>
    intro i _ hp
    obtain ⟨p, c⟩ := f
    have hsep : noNl (formatSeparator i p) :=
      noNl_formatSeparator (hp (p, c) (by simp)) i
    cases rest with
    | nil =>
      show splitLines (joinNl [formatSeparator i p, stripTrailingNl c]) = _
      rw [show joinNl [formatSeparator i p, stripTrailingNl c] =
          formatSeparator i p ++ "\n" ++ stripTrailingNl c from rfl]
      rw [splitLines_append_nl, splitLines_of_noNl hsep]
      simp [bodyLines, fileBlockLines]
    | cons g r2 =>
      have hjoin : joinNl (buildParts ((p, c) :: g :: r2) i) =
          formatSeparator i p ++ "\n" ++ (stripTrailingNl c ++ "\n" ++
            joinNl (buildParts (g :: r2) (i + 1))) := by
        show joinNl (formatSeparator i p :: stripTrailingNl c ::
          buildParts (g :: r2) (i + 1)) = _
        obtain ⟨gp, gc⟩ := g
        show joinNl (formatSeparator i p :: stripTrailingNl c ::
          formatSeparator (i + 1) gp :: _) = _
        rfl
      rw [hjoin, splitLines_append_nl, splitLines_append_nl,
        splitLines_of_noNl hsep]
      rw [ih (i + 1) (by simp) (fun pc hpc => hp pc (List.mem_cons_of_mem _ hpc))]
      simp [bodyLines, fileBlockLines]

theorem length_indexEntryLines (idx : List FileEntry) :
    ∀ i : Nat, (indexEntryLines i idx).length = idx.length := by
  induction idx with
  | nil => intro i; rfl
  | cons e rest ih => intro i; simp [indexEntryLines, ih]

theorem noNl_mem_indexEntryLines (idx : List FileEntry)
    (hp : ∀ e ∈ idx, noNl e.path) :
    ∀ (i : Nat), ∀ s ∈ indexEntryLines i idx, noNl s := by
  induction idx with
  | nil => intro i s hs; simp [indexEntryLines] at hs
  | cons e rest ih =>
    intro i s hs
    rcases List.mem_cons.mp hs with rfl | hs2
    · exact noNl_indexEntryLine (hp e (by simp)) i
    · exact ih (fun x hx => hp x (List.mem_cons_of_mem _ hx)) (i + 1) s hs2

theorem splitLines_formatIndex (idx : List FileEntry) (hne : idx ≠ [])
    (hp : ∀ e ∈ idx, noNl e.path) :
    splitLines (formatIndex idx) =
      ("# Index (" ++ toString idx.length ++ " file" ++
        (if idx.length = 1 then "" else "s") ++ ")") :: indexEntryLines 0 idx := by
  have htitle : noNl ("# Index (" ++ toString idx.length ++ " file" ++
      (if idx.length = 1 then "" else "s") ++ ")") :=
    noNl_append (noNl_append (noNl_append (noNl_append (by decide)
      (noNl_natToString _)) (by decide)) (by split <;> decide)) (by decide)
  have hform : formatIndex idx = joinNl (("# Index (" ++ toString idx.length ++
      " file" ++ (if idx.length = 1 then "" else "s") ++ ")") ::
        indexEntryLines 0 idx) := by
    cases idx with
    | nil => exact absurd rfl hne
    | cons e rest => rfl
  rw [hform]
  apply splitLines_joinNl_of_noNl (by simp)
  intro s hs
  rcases List.mem_cons.mp hs with rfl | hs2
  · exact htitle
  · exact noNl_mem_indexEntryLines idx hp 0 s hs2

theorem dropWhile_head_not {p : Char → Bool} :
    ∀ (L : List Char) (c : Char) (cs : List Char),
      L.dropWhile p = c :: cs → p c = false := by
  intro L
  induction L with
  | nil => intro c cs h; cases h
  | cons a as ih =>
    intro c cs h
    rw [List.dropWhile_cons] at h
    split at h
    · exact ih c cs h
    · rename_i hpa
      injection h with h1 _
      subst h1
      simpa using hpa

theorem jsTrim_not_endsWithNl (s : String) (h : jsTrim s ≠ "") :
    endsWithNl (jsTrim s) = false := by
  unfold endsWithNl jsTrim
  rw [show ((⟨((s.data.dropWhile isWsChar).reverse.dropWhile isWsChar).reverse⟩ :
      String)).data = ((s.data.dropWhile isWsChar).reverse.dropWhile
        isWsChar).reverse from rfl]
  rw [List.getLast?_reverse]
  cases hl : (s.data.dropWhile isWsChar).reverse.dropWhile isWsChar with
  | nil => simp
  | cons c cs =>
    have hc : isWsChar c = false := dropWhile_head_not _ c cs hl
    simp only [List.head?_cons, beq_eq_false_iff_ne, ne_eq, Option.some.injEq]
    intro hcn
    subst hcn
    cases hc

theorem normalizePrompt_some {o : Option String} {q : String}
    (h : normalizePrompt o = some q) : q ≠ "" ∧ endsWithNl q = false := by
  cases o with
  | none => cases h
  | some s =>
    simp only [normalizePrompt] at h
    split at h
    · cases h
    · rename_i hts
      injection h with h2
      subst h2
      exact ⟨hts, jsTrim_not_endsWithNl s hts⟩

theorem length_splitLines_countLines {q : String} (hne : q ≠ "")
    (hq : endsWithNl q = false) : (splitLines q).length = countLines q := by
  rw [length_splitLines, countLines, if_neg hne, hq]
  simp

theorem splitLines_prompt_frame (q rest : String) :
    splitLines (q ++ "\n\n---\n\n" ++ rest) =
      splitLines q ++ [""] ++ ["---"] ++ [""] ++ splitLines rest := by
  have hsh : q ++ "\n\n---\n\n" ++ rest =
      q ++ "\n" ++ ("" ++ "\n" ++ ("---" ++ "\n" ++ ("" ++ "\n" ++ rest))) := by
    apply String.ext
    simp [String.data_append]
  rw [hsh, splitLines_append_nl, splitLines_append_nl, splitLines_append_nl,
    splitLines_append_nl]
  have h1 : splitLines "" = [""] := rfl
  have h2 : splitLines "---" = ["---"] := rfl
  rw [h1, h2]
  simp

theorem splitLines_index_frame (ib rest : String) :
    splitLines (ib ++ "\n\n" ++ rest) =
      splitLines ib ++ [""] ++ splitLines rest := by
  have hsh : ib ++ "\n\n" ++ rest = ib ++ "\n" ++ ("" ++ "\n" ++ rest) := by
    apply String.ext
    simp [String.data_append]
  rw [hsh, splitLines_append_nl, splitLines_append_nl]
  have h1 : splitLines "" = [""] := rfl
  rw [h1]
  simp

theorem buildEntries_ne_nil {files : List (String × String)} (h : files ≠ [])
    (cur : Nat) : buildEntries files cur ≠ [] := by
  cases files with
  | nil => exact absurd rfl h
  | cons f rest => obtain ⟨p, c⟩ := f; simp [buildEntries]

theorem mem_buildEntries_path :
    ∀ (files : List (String × String)) (cur : Nat) (e : FileEntry),
      e ∈ buildEntries files cur → ∃ pc ∈ files, e.path = pc.1 := by
  intro files
  induction files with
  | nil => intro cur e he; simp [buildEntries] at he
  | cons f rest ih =>
    intro cur e he
    obtain ⟨p, c⟩ := f
    rcases List.mem_cons.mp he with rfl | he2
    · exact ⟨(p, c), by simp⟩
    · obtain ⟨pc, hpc, hpath⟩ := ih _ e he2
      exact ⟨pc, List.mem_cons_of_mem _ hpc, hpath⟩

/-- The rendered bundle splits into a header prefix of exactly the shift
size, followed by the reference body layout. -/
theorem splitLines_createBundle_decomp (files : List (String × String))
    (opts : BundleOptions) (hne : files ≠ []) (hp : ∀ pc ∈ files, noNl pc.1) :
    ∃ hdr : List String,
      splitLines (createBundle files opts).content = hdr ++ bodyLines files 1 ∧
      hdr.length =
        (if opts.includeIndex then
          files.length + 2 +
            (match normalizePrompt opts.prompt with
              | none => 0
              | some q => countLines q + 3)
        else
          match normalizePrompt opts.prompt with
          | none => 0
          | some q => countLines q + 3) := by
  have hbody := splitLines_joinNl_buildParts files 1 hne hp
  have hidxpaths : ∀ n, ∀ e ∈ (buildEntries files 1).map (shiftEntry n),
      noNl e.path := by
    intro n e he
    obtain ⟨e0, he0, rfl⟩ := List.mem_map.mp he
    obtain ⟨pc, hpc, hpath⟩ := mem_buildEntries_path files 1 e0 he0
    show noNl (shiftEntry n e0).path
    have : (shiftEntry n e0).path = pc.1 := hpath
    rw [this]
    exact hp pc hpc
  have hmapne : ∀ n, (buildEntries files 1).map (shiftEntry n) ≠ [] := by
    intro n hcon
    exact buildEntries_ne_nil hne 1 (List.map_eq_nil_iff.mp hcon)
  have hmaplen : ∀ n, ((buildEntries files 1).map (shiftEntry n)).length =
      files.length := by
    intro n
    rw [List.length_map, buildEntries_length]
  cases hpr : normalizePrompt opts.prompt with
  | none =>
    cases hin : opts.includeIndex with
    | false =>
      refine ⟨[], ?_, by simp [hin]⟩
      simp only [createBundle, hpr, hin, Bool.false_eq_true, if_false,
        List.nil_append]
      exact hbody
    | true =>
      refine ⟨splitLines (formatIndex ((buildEntries files 1).map
        (shiftEntry ((buildEntries files 1).length + 2 + 0)))) ++ [""], ?_, ?_⟩
      · simp only [createBundle, hpr, hin, if_true]
        rw [if_neg (by
          intro hcon
          rw [List.isEmpty_iff] at hcon
          exact hmapne _ hcon)]
        rw [splitLines_index_frame, hbody]
      · rw [List.length_append,
          splitLines_formatIndex _ (hmapne _) (hidxpaths _)]
        simp only [List.length_cons, length_indexEntryLines, hmaplen, hin,
          if_true]
        simp
  | some q =>
    obtain ⟨hqne, hqnl⟩ := normalizePrompt_some hpr
    have hql : (splitLines q).length = countLines q :=
      length_splitLines_countLines hqne hqnl
    cases hin : opts.includeIndex with
    | false =>
      refine ⟨splitLines q ++ [""] ++ ["---"] ++ [""], ?_, ?_⟩
      · simp only [createBundle, hpr, hin, Bool.false_eq_true, if_false]
        rw [splitLines_prompt_frame, hbody]
      · simp only [hin, Bool.false_eq_true, if_false]
        simp [hql]
    | true =>
      refine ⟨splitLines q ++ [""] ++ ["---"] ++ [""] ++
        (splitLines (formatIndex ((buildEntries files 1).map
          (shiftEntry ((buildEntries files 1).length + 2 +
            (countLines q + 3))))) ++ [""]), ?_, ?_⟩
      · simp only [createBundle, hpr, hin, if_true]
        rw [if_neg (by
          intro hcon
          rw [List.isEmpty_iff] at hcon
          exact hmapne _ hcon)]
        rw [splitLines_prompt_frame, splitLines_index_frame, hbody]
        simp
      · rw [List.length_append, List.length_append, List.length_append,
          List.length_append, List.length_append,
          splitLines_formatIndex _ (hmapne _) (hidxpaths _), hql]
        simp only [List.length_cons, List.length_nil, length_indexEntryLines,
          hmaplen, hin, if_true]
        simp
        ring

/-- Position of each file inside the body layout: in the cursor space
starting at `cur`, the separator of entry `k` sits `e.startLine - cur - 1`
lines in, and the next `e.endLine + 1 - e.startLine` lines are exactly the
stripped content lines. -/
theorem bodyLines_position (files : List (String × String)) :
    ∀ (i cur k : Nat) (e : FileEntry) (p c : String),
      (buildEntries files cur)[k]? = some e → files[k]? = some (p, c) →
      (bodyLines files i)[e.startLine - cur - 1]? =
        some (formatSeparator (i + k) p) ∧
      ((bodyLines files i).drop (e.startLine - cur)).take
        (e.endLine + 1 - e.startLine) = splitLines (stripTrailingNl c) := by
  induction files with
  | nil => intro i cur k e p c he hf; simp [buildEntries] at he
  | cons f rest ih =>
    intro i cur k e p c he hf
    obtain ⟨p0, c0⟩ := f
    cases k with
    | zero =>
      simp only [buildEntries, List.getElem?_cons_zero, Option.some.injEq] at he hf
      injection hf with hp1 hc1
      subst hp1
      subst hc1
      have hstart : e.startLine = cur + 1 := by rw [← he]
      have hend : e.endLine = cur + 1 + (countLines c0 - 1) := by rw [← he]
      refine ⟨?_, ?_⟩
      · rw [hstart, show cur + 1 - cur - 1 = 0 from by omega]
        simp [bodyLines, fileBlockLines]
      · rw [hstart, hend,
          show cur + 1 - cur = 1 from by omega,
          show cur + 1 + (countLines c0 - 1) + 1 - (cur + 1) =
            max 1 (countLines c0) from by omega]
        simp only [bodyLines, fileBlockLines, List.cons_append,
          List.drop_succ_cons, List.drop_zero]
        exact List.take_left' (length_splitLines_stripTrailingNl c0)
    | succ k =>
      simp only [buildEntries, List.getElem?_cons_succ] at he hf
      have hlb := buildEntries_start_lb rest _ k e he
      have hblock : (fileBlockLines i p0 c0).length = (countLines c0 - 1) + 2 := by
        simp only [fileBlockLines, List.length_cons,
          length_splitLines_stripTrailingNl]
        omega
      have ihres := ih (i + 1) (cur + 1 + (countLines c0 - 1) + 1) k e p c he hf
      have hbody : bodyLines ((p0, c0) :: rest) i =
          fileBlockLines i p0 c0 ++ bodyLines rest (i + 1) := rfl
      refine ⟨?_, ?_⟩
      · rw [hbody, List.getElem?_append_right (by rw [hblock]; omega),
          show e.startLine - cur - 1 - (fileBlockLines i p0 c0).length =
            e.startLine - (cur + 1 + (countLines c0 - 1) + 1) - 1 from by
              rw [hblock]; omega,
          show i + (k + 1) = i + 1 + k from by omega]
        exact ihres.1
      · rw [hbody,
          show e.startLine - cur = (fileBlockLines i p0 c0).length +
            (e.startLine - (cur + 1 + (countLines c0 - 1) + 1)) from by
              rw [hblock]; omega,
          List.drop_append]
        exact ihres.2

/-- Claim C1, amended: provided no file path contains a newline character,
the returned index is consistent with the rendered content under every
combination of `includeIndex` and prompt: splitting the content on
newlines, line `startLine - 1` (1-indexed) is the file's separator line
and lines `startLine` through `endLine` are exactly the file's content
with a single trailing newline stripped. -/
theorem index_content_consistency_spec (files : List (String × String))
    (opts : BundleOptions) (hp : ∀ pc ∈ files, noNl pc.1) :
    ∀ (k : Nat) (e : FileEntry) (p c : String),
      (createBundle files opts).index[k]? = some e →
      files[k]? = some (p, c) →
      (splitLines (createBundle files opts).content)[e.startLine - 2]? =
        some (formatSeparator (k + 1) p) ∧
      ((splitLines (createBundle files opts).content).drop
        (e.startLine - 1)).take (e.endLine + 1 - e.startLine) =
        splitLines (stripTrailingNl c) := by
  intro k e p c he hf
  have hne : files ≠ [] := by
    intro hn
    rw [hn] at hf
    simp at hf
  obtain ⟨hdr, hsplit, hlen⟩ := splitLines_createBundle_decomp files opts hne hp
  rw [createBundle_index, List.getElem?_map] at he
  cases hb : (buildEntries files 1)[k]? with
  | none => rw [hb] at he; simp at he
  | some e0 =>
    rw [hb] at he
    rw [← hlen] at he
    simp only [Option.map_some', Option.some.injEq] at he
    subst he
    have hstart0 := buildEntries_start_lb files 1 k e0 hb
    obtain ⟨hpos1, hpos2⟩ := bodyLines_position files 1 1 k e0 p c hb hf
    constructor
    · rw [hsplit,
        show (shiftEntry hdr.length e0).startLine - 2 =
          hdr.length + (e0.startLine - 2) from by simp [shiftEntry]; omega,
        List.getElem?_append_right (by omega),
        show hdr.length + (e0.startLine - 2) - hdr.length = e0.startLine - 2
          from by omega,
        show k + 1 = 1 + k from by omega,
        show e0.startLine - 2 = e0.startLine - 1 - 1 from by omega]
      exact hpos1
    · rw [hsplit,
        show (shiftEntry hdr.length e0).startLine - 1 =
          hdr.length + (e0.startLine - 1) from by simp [shiftEntry]; omega,
        List.drop_append,
        show (shiftEntry hdr.length e0).endLine + 1 -
            (shiftEntry hdr.length e0).startLine =
          e0.endLine + 1 - e0.startLine from by simp [shiftEntry]; omega]
      exact hpos2

/-- Witness for the amended C1 at the acceptance-test bundle. -/
theorem index_content_consistency_spec_witness :
    (splitLines (createBundle [("a.ts", "const a = 1;\n")] {}).content)[5 - 2]? =
        some (formatSeparator (0 + 1) "a.ts") ∧
      ((splitLines (createBundle [("a.ts", "const a = 1;\n")] {}).content).drop
        (5 - 1)).take (5 + 1 - 5) =
        splitLines (stripTrailingNl "const a = 1;\n") :=
  index_content_consistency_spec [("a.ts", "const a = 1;\n")] {} (by decide)
    0 ⟨"a.ts", 1, 5, 5⟩ "a.ts" "const a = 1;\n" (by decide) (by decide)

/-- Counterexample to C1 as literally stated, at the concrete input
`[("a\nb", "c")]` with the index suppressed and no prompt: the entry says
the separator is line 1, but the path's embedded newline makes line 1 only
the first half of the separator. -/
theorem index_content_consistency_counterexample :
    (createBundle [("a\nb", "c")] { includeIndex := false }).index =
        [⟨"a\nb", 1, 2, 2⟩] ∧
      (splitLines (createBundle [("a\nb", "c")]
          { includeIndex := false }).content)[2 - 2]? ≠
        some (formatSeparator (0 + 1) "a\nb") :=
  ⟨by decide, by decide⟩

end Srcpack
